import Mathlib

/-!
Verification of the segment-extract / translate / reassemble pipeline of the
auto-translation repository (honyaku.py, honyaku_cpp.py, honyaku_md.py,
honyaku_tex.py).  Documents are modelled as lists of characters / lists of
lines, translation services as functions on text, and each driver's
segmentation and reassembly code is embedded as executable Lean definitions
translated from the Python source.
-/

/-- Text is modelled as a list of characters (Python `str`). -/
abbrev Str := List Char

/-- Shorthand turning a Lean string literal into the character-list model. -/
def S (s : String) : Str := s.data

/-- Python whitespace predicate used by `str.strip` and `\s` in regexes:
space, tab, newline, carriage return, vertical tab, form feed. -/
def pyIsSpace (c : Char) : Bool :=
  c == ' ' || c == '\t' || c == '\n' || c == '\r' || c == '\x0b' || c == '\x0c'

/-- Python `str.lstrip(chars)`: drop leading characters satisfying `p`. -/
def lstripWith (p : Char → Bool) (s : Str) : Str := s.dropWhile p

/-- Python `str.rstrip(chars)`: drop trailing characters satisfying `p`. -/
def rstripWith (p : Char → Bool) (s : Str) : Str := (s.reverse.dropWhile p).reverse

/-- Python `str.strip()` with no arguments (whitespace on both ends). -/
def pyStrip (s : Str) : Str := rstripWith pyIsSpace (lstripWith pyIsSpace s)

/-- Python `str.rstrip('\n\r')`, used by the markdown driver on line content. -/
def rstripNl (s : Str) : Str := rstripWith (fun c => c == '\n' || c == '\r') s

/-- Test for `re.search(r'[a-zA-Z0-9]', s)`: does the text contain an ASCII
alphanumeric character?  (`Char.isAlpha`/`Char.isDigit` are the ASCII tests.) -/
def hasAlnum (s : Str) : Bool := s.any (fun c => c.isAlpha || c.isDigit)

/-- Python `str.startswith(pat)` on the character-list model. -/
def startsWithStr : Str → Str → Bool
  | [], _ => true
  | _ :: _, [] => false
  | p :: ps, c :: cs => p == c && startsWithStr ps cs

/-- Decompose a string at the first occurrence of `pat`: returns the part
before the match and the part after it (Python `str.find` / leftmost regex
match of a literal). -/
def findSub (pat : Str) : Str → Option (Str × Str)
  | [] => if pat = [] then some ([], []) else none
  | c :: cs =>
    if startsWithStr pat (c :: cs) then some ([], (c :: cs).drop pat.length)
    else (findSub pat cs).map (fun p => (c :: p.1, p.2))

/-- Python `pat in s` (used for `re.search` of a literal pattern). -/
def containsSub (pat : Str) (s : Str) : Bool := (findSub pat s).isSome

/-- Index of the first occurrence of `pat` in `s` (Python `str.find`),
`none` when absent. -/
def findSubIdx (pat : Str) (s : Str) : Option Nat :=
  (findSub pat s).map (fun p => p.1.length)

/-- A scanned piece of a document: `inl` is literal (protected) text copied
verbatim, `inr` is a regex match eligible for replacement. -/
abbrev Chunk := Str ⊕ Str

/-- Concatenate chunks back into the original text. -/
def chunkFlatten : List Chunk → Str
  | [] => []
  | Sum.inl t :: ch => t ++ chunkFlatten ch
  | Sum.inr m :: ch => m ++ chunkFlatten ch

/-- Concatenate chunks, sending each match through the replacement function
(Python `re.sub` with a function argument). -/
def chunkApply (repl : Str → Str) : List Chunk → Str
  | [] => []
  | Sum.inl t :: ch => t ++ chunkApply repl ch
  | Sum.inr m :: ch => repl m ++ chunkApply repl ch

/-- The list of matches, in order of appearance (Python `re.finditer`). -/
def chunkMatches : List Chunk → List Str
  | [] => []
  | Sum.inl _ :: ch => chunkMatches ch
  | Sum.inr m :: ch => m :: chunkMatches ch

/-! ### C-family driver (honyaku_cpp.py) -/

/-- Consume characters up to (not including) the next newline: the `.*` part
of the single-line comment regex `//.*`. -/
def takeToEol : Str → Str × Str
  | [] => ([], [])
  | c :: cs =>
    if c = '\n' then ([], c :: cs)
    else
      let p := takeToEol cs
      (c :: p.1, p.2)

/-- Consume characters up to and including the first `*/`, the non-greedy
`[\s\S]*?\*/` part of the block comment regex; `none` when unterminated. -/
def takeToBlockEnd : Str → Option (Str × Str)
  | [] => none
  | c1 :: rest =>
    match rest with
    | [] => none
    | c2 :: cs =>
      if c1 = '*' ∧ c2 = '/' then some (['*', '/'], cs)
      else
        match takeToBlockEnd (c2 :: cs) with
        | none => none
        | some p => some (c1 :: p.1, p.2)

/-- Fuelled scanner for the comment regex `(//.*)|(/\*[\s\S]*?\*/)`:
left-to-right, line comments take priority at a position, an unterminated
`/*` is literal text (the regex fails there and the engine advances one
character).  Fuel bounds the recursion; `input.length` always suffices. -/
def scanCommentsF : Nat → Str → List Chunk
  | 0, s => s.map (fun c => Sum.inl [c])
  | _ + 1, [] => []
  | fuel + 1, c1 :: rest =>
    match rest with
    | [] => [Sum.inl [c1]]
    | c2 :: cs =>
      if c1 = '/' ∧ c2 = '/' then
        Sum.inr ('/' :: '/' :: (takeToEol cs).1) :: scanCommentsF fuel (takeToEol cs).2
      else if c1 = '/' ∧ c2 = '*' then
        match takeToBlockEnd cs with
        | some p => Sum.inr ('/' :: '*' :: p.1) :: scanCommentsF fuel p.2
        | none => Sum.inl [c1] :: scanCommentsF fuel (c2 :: cs)
      else Sum.inl [c1] :: scanCommentsF fuel (c2 :: cs)

/-- Scan a whole file for C-family comments. -/
def scanComments (s : Str) : List Chunk := scanCommentsF s.length s

/-- Python `comment_pattern.finditer(content)`: all comment matches in order. -/
def findComments (s : Str) : List Str := chunkMatches (scanComments s)

/-- Python `comment_pattern.sub(replace_comment, content)`: every comment
match replaced through `repl`, other text copied verbatim. -/
def substComments (repl : Str → Str) (s : Str) : Str := chunkApply repl (scanComments s)

/-- Model of `translate_with_semaphore` in honyaku_cpp.py: the dispatch
wrapper around one translation call.  `tr` is the external service
(`translator.translate(...).text`); the jittered sleep and the semaphore are
timing-only and do not affect the returned text.  The cleaned text follows
the source's chain `text.strip().lstrip('//').lstrip('/*').rstrip('*/')
.strip()`: strip whitespace, strip leading characters from the set `/`,
then from the set `/` `*`, strip trailing characters from the set `*` `/`,
strip whitespace again. -/
def cpp_translate_with_semaphore (tr : Str → Str) (text : Str) : Str :=
  if hasAlnum text then
    let clean := pyStrip (rstripWith (fun c => c == '*' || c == '/')
      (lstripWith (fun c => c == '/' || c == '*')
        (lstripWith (fun c => c == '/') (pyStrip text))))
    if clean = [] then text
    else
      let translated := tr clean
      let indent := text.takeWhile pyIsSpace
      if startsWithStr (S "//") (lstripWith pyIsSpace text) then
        indent ++ S "// " ++ translated
      else if startsWithStr (S "/*") (lstripWith pyIsSpace text) then
        indent ++ S "/* " ++ translated ++ S " */"
      else translated
  else text

/-- Python `dict(zip(keys, vals)).get(k)`: association lookup where a later
binding of the same key overwrites an earlier one. -/
def dictGet (pairs : List (Str × Str)) (k : Str) : Option Str :=
  (pairs.reverse.find? (fun pr => pr.1 == k)).map Prod.snd

/-- The `translation_map` lookup of honyaku_cpp.py `replace_comment`:
`dict(zip(comments, translated_comments)).get(original, original)`. -/
def cppTranslationMap (comments results : List Str) (t : Str) : Str :=
  match dictGet (comments.zip results) t with
  | some v => v
  | none => t

/-- Core of `process_file` in honyaku_cpp.py, parametrised by the list of
per-call gather results (one per comment, in match order). -/
def cpp_process_file_with (results : List Str) (content : Str) : Str :=
  if findComments content = [] then content
  else substComments (cppTranslationMap (findComments content) results) content

/-- Model of `process_file` in honyaku_cpp.py: find all comments, translate
each through the dispatch wrapper, substitute them back through the
text-keyed translation map. -/
def cpp_process_file (tr : Str → Str) (content : Str) : Str :=
  cpp_process_file_with ((findComments content).map (cpp_translate_with_semaphore tr)) content

/-! ### Lightweight-markup driver (honyaku_md.py) -/

/-- Consume characters up to the first backtick: returns the span content and
the rest after the closing backtick, or `none` when the span is unclosed
(then the regex `` `[^`]*?` `` does not match there). -/
def spanToBacktick : Str → Option (Str × Str)
  | [] => none
  | c :: cs =>
    if c = '`' then some ([], cs)
    else (spanToBacktick cs).map (fun p => (c :: p.1, p.2))

/-- Fuelled scanner splitting a line into literal text and inline-code spans
(the regex `` `[^`]*?` `` of `translate_line`); matches include their
delimiting backticks.  Fuel `line.length` always suffices. -/
def splitInlineF : Nat → Str → List Chunk
  | 0, s => s.map (fun c => Sum.inl [c])
  | _ + 1, [] => []
  | fuel + 1, c :: cs =>
    if c = '`' then
      match spanToBacktick cs with
      | some p => Sum.inr ('`' :: p.1 ++ ['`']) :: splitInlineF fuel p.2
      | none => Sum.inl ['`'] :: splitInlineF fuel cs
    else Sum.inl [c] :: splitInlineF fuel cs

/-- Split a line at its inline-code spans. -/
def splitInline (s : Str) : List Chunk := splitInlineF s.length s

/-- The placeholder text `__INLINECODE{n}__` produced by
`replace_inline_code` for the `n`-th span (written with a format string in
the source; `n` counts previously created snippets). -/
def mdPlaceholder (n : Nat) : Str := S "__INLINECODE" ++ Nat.toDigits 10 n ++ S "__"

/-- Number the inline-code spans of a chunk list in order of appearance,
pairing each with its placeholder. -/
def phChunksAux : List Chunk → Nat → List (Str ⊕ (Str × Str))
  | [], _ => []
  | Sum.inl t :: ch, n => Sum.inl t :: phChunksAux ch n
  | Sum.inr code :: ch, n => Sum.inr (mdPlaceholder n, code) :: phChunksAux ch (n + 1)

/-- Rebuild the line with every inline-code span replaced by its placeholder
(the `line_with_placeholders` value in `translate_line`). -/
def phFlatten : List (Str ⊕ (Str × Str)) → Str
  | [] => []
  | Sum.inl t :: ch => t ++ phFlatten ch
  | Sum.inr pr :: ch => pr.1 ++ phFlatten ch

/-- The snippet dictionary of `translate_line` in insertion order:
`(placeholder, original span)` pairs. -/
def phSnips : List (Str ⊕ (Str × Str)) → List (Str × Str)
  | [] => []
  | Sum.inl _ :: ch => phSnips ch
  | Sum.inr pr :: ch => pr :: phSnips ch

/-- The line with placeholders substituted for inline code. -/
def mdLineWithPH (line : Str) : Str := phFlatten (phChunksAux (splitInline line) 0)

/-- The `inline_code_snippets` mapping of `translate_line`. -/
def mdSnippets (line : Str) : List (Str × Str) := phSnips (phChunksAux (splitInline line) 0)

/-- Fuelled model of `re.sub(r'\s*' + placeholder + r'\s*', original, s)`:
replace every occurrence of the placeholder together with any adjacent
whitespace by the original span text.  Fuel `s.length` always suffices. -/
def subStripAllF (ph orig : Str) : Nat → Str → Str
  | 0, s => s
  | fuel + 1, s =>
    match findSub ph s with
    | none => s
    | some p =>
      rstripWith pyIsSpace p.1 ++ orig ++
        subStripAllF ph orig fuel (lstripWith pyIsSpace p.2)

/-- Restore one placeholder into the translated line, stripping whitespace
the pattern `\s*…\s*` absorbs around each occurrence. -/
def subStripAll (ph orig s : Str) : Str :=
  if ph = [] then s else subStripAllF ph orig s.length s

/-- Model of `translate_line` in honyaku_md.py: protect inline code behind
placeholders, translate the rest of the line as a unit, then restore each
placeholder by the whitespace-stripping substitution.  Lines without ASCII
alphanumerics (before or after placeholder substitution) are returned
unchanged without calling the service. -/
def translate_line (tr : Str → Str) (line : Str) : Str :=
  if hasAlnum line = false then line
  else if hasAlnum (mdLineWithPH line) = false then line
  else
    (mdSnippets line).foldl (fun acc pr => subStripAll pr.1 pr.2 acc)
      (tr (mdLineWithPH line))

/-- The fenced code-block delimiter `CODE_BLOCK_MARKER` (three backticks). -/
def CODE_BLOCK_MARKER : Str := S "```"

/-- Does the line toggle the fenced code-block state?
(`line.strip().startswith(CODE_BLOCK_MARKER)`). -/
def isFence (line : Str) : Bool := startsWithStr CODE_BLOCK_MARKER (pyStrip line)

/-- The segmentation loop of `process_file` in honyaku_md.py: walk the lines
with the `in_code_block` toggle, skipping fence lines, lines inside a fenced
block and blank lines; every remaining line becomes a segment
`(index, original line)` whose content is sent for translation. -/
def mdSegmentAux : List Str → Nat → Bool → List (Nat × Str)
  | [], _, _ => []
  | l :: ls, i, inBlock =>
    if isFence l then mdSegmentAux ls (i + 1) (!inBlock)
    else if inBlock then mdSegmentAux ls (i + 1) inBlock
    else if rstripNl l = [] then mdSegmentAux ls (i + 1) inBlock
    else (i, l) :: mdSegmentAux ls (i + 1) inBlock

/-- Write each replacement at its recorded index (the reassembly loop
`lines[info['index']] = translated_content + original_ending`). -/
def storeByIndex (pairs : List (Nat × Str)) (lines : List Str) : List Str :=
  pairs.foldl (fun acc pr => acc.set pr.1 pr.2) lines

/-- Replacement pair for one markdown segment: the translated content with
the original line terminator re-attached, keyed by the original index. -/
def mdWrap (tr : Str → Str) (pr : Nat × Str) : Nat × Str :=
  let content := rstripNl pr.2
  (pr.1, translate_line tr content ++ pr.2.drop content.length)

/-- The `(index, replacement)` pairs produced for a markdown file; the
results of `asyncio.gather` are consumed in task order, i.e. segment order. -/
def mdPairs (tr : Str → Str) (lines : List Str) : List (Nat × Str) :=
  (mdSegmentAux lines 0 false).map (mdWrap tr)

/-- Model of `process_file` in honyaku_md.py: segment, translate each
segment, write every replacement back at its original index. -/
def md_process_file (tr : Str → Str) (lines : List Str) : List Str :=
  storeByIndex (mdPairs tr lines) lines

/-! ### Typesetting driver (honyaku_tex.py) -/

/-- Model of `item_pattern.match(line)` for the regex `^\s*\\item\s*`:
returns the full matched text (leading whitespace, the literal `\item`,
trailing whitespace) when the line matches at its start. -/
def itemMatch (line : Str) : Option Str :=
  let ws := line.takeWhile pyIsSpace
  let rest := line.drop ws.length
  if startsWithStr (S "\\item") rest then
    let rest2 := rest.drop 5
    some (ws ++ S "\\item" ++ rest2.takeWhile pyIsSpace)
  else none

/-- The block-open delimiter searched by `begin_pattern` (regex `\\{`,
i.e. a literal backslash followed by an opening brace). -/
def texBlockOpen : Str := S "\\\x7b"

/-- The block-close delimiter searched by `end_pattern` (regex `\\}`). -/
def texBlockClose : Str := S "\\\x7d"

/-- The segmentation loop of `process_file` in honyaku_tex.py, with its
strict rule order: (1) an `\item` line is segmented (if its remainder is
non-blank) and no further rule runs; (2) a line containing the block-open
delimiter turns the verbatim flag on; (3) one containing the block-close
delimiter turns it off; (4) lines inside the block or containing a
backslash are skipped; (5) blank lines are skipped; (6) everything else is
a segment.  Segments carry `(index, text sent to the dispatcher)`. -/
def texSegmentAux : List Str → Nat → Bool → List (Nat × Str)
  | [], _, _ => []
  | l :: ls, i, inBlock =>
    match itemMatch l with
    | some m =>
      let textPart := l.drop m.length
      if pyStrip textPart = [] then texSegmentAux ls (i + 1) inBlock
      else (i, textPart) :: texSegmentAux ls (i + 1) inBlock
    | none =>
      if containsSub texBlockOpen l then texSegmentAux ls (i + 1) true
      else if containsSub texBlockClose l then texSegmentAux ls (i + 1) false
      else if inBlock || l.contains '\\' then texSegmentAux ls (i + 1) inBlock
      else if pyStrip l = [] then texSegmentAux ls (i + 1) inBlock
      else (i, l) :: texSegmentAux ls (i + 1) inBlock

/-- Model of `translate_with_semaphore` in honyaku_tex.py: translate the
stripped text and re-attach the original indentation plus a newline;
non-alphanumeric text is returned unchanged without calling the service. -/
def tex_translate_with_semaphore (tr : Str → Str) (text : Str) : Str :=
  if hasAlnum text then
    let clean := pyStrip text
    if clean = [] then text
    else text.takeWhile pyIsSpace ++ tr clean ++ ['\n']
  else text

/-- Replacement pair for one TeX segment: an `\item` line gets the matched
item command back as marker followed by the left-stripped translation, any
other line is replaced by the translation as is. -/
def texWrap (lines : List Str) (tr : Str → Str) (pr : Nat × Str) : Nat × Str :=
  let t := tex_translate_with_semaphore tr pr.2
  match itemMatch (lines.getD pr.1 []) with
  | some m => (pr.1, m ++ lstripWith pyIsSpace t)
  | none => (pr.1, t)

/-- The `(index, replacement)` pairs produced for a TeX file, in segment
order (the order `asyncio.gather` returns its results). -/
def texPairs (tr : Str → Str) (lines : List Str) : List (Nat × Str) :=
  (texSegmentAux lines 0 false).map (texWrap lines tr)

/-- Model of `process_file` in honyaku_tex.py: when nothing is translatable
the file is copied unchanged, otherwise every replacement is written back at
its original line index. -/
def tex_process_file (tr : Str → Str) (lines : List Str) : List Str :=
  if texSegmentAux lines 0 false = [] then lines
  else storeByIndex (texPairs tr lines) lines

/-! ### Tree-structured markup driver (honyaku.py) -/

/-- A parsed markup tree: leaf text nodes (`NavigableString`) and elements
with a tag name and children (attributes play no role in the pipeline). -/
inductive HNode where
  | text : Str → HNode
  | elem : Str → List HNode → HNode

/-- The configured exclusion set `EXCLUDE_TAGS` of honyaku.py. -/
def EXCLUDE_TAGS : List Str :=
  [S "a", S "code", S "script", S "style", S "head", S "title", S "meta", S "[document]"]

/-- The configured special-handling set `SPECIAL_HANDLING_TAGS`. -/
def SPECIAL_HANDLING_TAGS : List Str := [S "pre"]

mutual
/-- BeautifulSoup `get_text()`: concatenation of all descendant text. -/
def getText : HNode → Str
  | .text s => s
  | .elem _ cs => getTextChildren cs

/-- Concatenated text of a list of nodes. -/
def getTextChildren : List HNode → Str
  | [] => []
  | c :: cs => getText c ++ getTextChildren cs
end

/-- Python `text.split('\n')`. -/
def splitNl : Str → List Str
  | [] => [[]]
  | c :: cs =>
    if c = '\n' then [] :: splitNl cs
    else
      match splitNl cs with
      | [] => [[c]]
      | l :: ls => (c :: l) :: ls

/-- Python `'\n'.join(lines)`. -/
def joinNl : List Str → Str
  | [] => []
  | [l] => l
  | l :: ls => l ++ '\n' :: joinNl ls

/-- The comment-collecting loop over the lines of a special-handling tag in
honyaku.py `process_file`: each line whose stripped form starts with `//`
and has non-empty comment text contributes `(comment_text, line_index)`;
the pair list doubles as insertion order of `lines_to_translate` and, read
as a last-wins dictionary, as `translation_map`. -/
def preSegmentsAux : List Str → Nat → List (Str × Nat)
  | [], _ => []
  | l :: ls, i =>
    let stripped := pyStrip l
    if startsWithStr (S "//") stripped then
      let ctext := pyStrip (lstripWith (fun c => c == '/') stripped)
      if ctext = [] then preSegmentsAux ls (i + 1)
      else (ctext, i) :: preSegmentsAux ls (i + 1)
    else preSegmentsAux ls (i + 1)

/-- Lookup in `translation_map` (a Python dict, later insertions win). -/
def dictGetNat (pairs : List (Str × Nat)) (k : Str) : Option Nat :=
  (pairs.reverse.find? (fun pr => pr.1 == k)).map Prod.snd

/-- Model of `translate_text_list` in honyaku.py: one task per text with
non-blank strip, gathered in task order, then results that are `None`
(failed calls) are filtered out of the returned list. -/
def translate_text_list (tr : Str → Option Str) (texts : List Str) : List Str :=
  (texts.filter (fun t => decide (pyStrip t ≠ []))).filterMap tr

/-- The write-back loop of honyaku.py `process_file` step 1: for each
`(original, translated)` pair, look the original up in `translation_map`,
recompute the indentation of the current line up to its `//` (Python
`line[:line.find('//')]`, where a failed find yields `line[:-1]`), and
overwrite that line with `indent // translated`. -/
def applyPrePairs (tmap : Str → Option Nat) (pairs : List (Str × Str))
    (lines : List Str) : List Str :=
  pairs.foldl (fun ls pr =>
    match tmap pr.1 with
    | none => ls
    | some i =>
      let cur := ls.getD i []
      let indent :=
        match findSubIdx (S "//") cur with
        | some k => cur.take k
        | none => cur.take (cur.length - 1)
      ls.set i (indent ++ S "// " ++ pr.2)) lines

/-- Step 1 of honyaku.py `process_file` on the line list of one
special-handling tag: collect `//` comment lines, translate them through
`translate_text_list`, zip the surviving results against all originals and
write them back.  (The zip silently drops pairing information when a call
failed, because failed results were filtered out of the gather output.) -/
def processPreLines (tr : Str → Option Str) (lines : List Str) : List Str :=
  let segs := preSegmentsAux lines 0
  let toTranslate := segs.map Prod.fst
  if toTranslate = [] then lines
  else
    let translated := translate_text_list tr toTranslate
    let originals := toTranslate.filter (fun t => decide (pyStrip t ≠ []))
    applyPrePairs (fun k => dictGetNat segs k) (originals.zip translated) lines

mutual
/-- Step 1 of honyaku.py `process_file` over the tree: every
special-handling element has its text lines comment-translated, joined with
newlines and installed as its single text child (`tag.string = new_content`,
which discards any markup structure under the tag). -/
def processSpecial (tr : Str → Option Str) : HNode → HNode
  | .text s => .text s
  | .elem tag cs =>
    if tag ∈ SPECIAL_HANDLING_TAGS then
      .elem tag [.text (joinNl (processPreLines tr (splitNl (getTextChildren cs))))]
    else .elem tag (processSpecialChildren tr cs)

/-- Step 1 applied to a list of sibling nodes. -/
def processSpecialChildren (tr : Str → Option Str) : List HNode → List HNode
  | [] => []
  | c :: cs => processSpecial tr c :: processSpecialChildren tr cs
end

mutual
/-- Model of the recursive walk `translate_element` in honyaku.py: an
element whose tag is in the exclusion or special-handling set is returned
unchanged (the walk returns without descending); otherwise its children are
walked.  A text child with non-blank strip is translated; a failed call
(`None`) or an empty translation leaves it unchanged. -/
def translateElement (tr : Str → Option Str) : HNode → HNode
  | .text s => .text s
  | .elem tag cs =>
    if tag ∈ EXCLUDE_TAGS ∨ tag ∈ SPECIAL_HANDLING_TAGS then .elem tag cs
    else .elem tag (translateChildren tr cs)

/-- The walk over the children of a non-excluded element. -/
def translateChildren (tr : Str → Option Str) : List HNode → List HNode
  | [] => []
  | HNode.text s :: rest =>
    (if pyStrip s ≠ [] then
      match tr s with
      | some t => if t ≠ [] then HNode.text t else HNode.text s
      | none => HNode.text s
    else HNode.text s) :: translateChildren tr rest
  | HNode.elem tag cs :: rest =>
    translateElement tr (.elem tag cs) :: translateChildren tr rest
end

/-- Model of honyaku.py `process_file` on the body subtree: special tags
first, then the general walk. -/
def html_process_file (tr : Str → Option Str) (doc : HNode) : HNode :=
  translateElement tr (processSpecial tr doc)

mutual
/-- Serialization of the tree (`str(soup)` restricted to the modelled
fragment: tags and text, no attributes). -/
def serialize : HNode → Str
  | .text s => s
  | .elem tag cs => '<' :: tag ++ '>' :: serializeChildren cs ++ '<' :: '/' :: tag ++ ['>']

/-- Serialization of a list of sibling nodes. -/
def serializeChildren : List HNode → Str
  | [] => []
  | c :: cs => serialize c ++ serializeChildren cs
end

mutual
/-- The texts the general walk would submit to the service: text children
with non-blank strip of elements outside the exclusion and special sets. -/
def walkTexts : HNode → List Str
  | .text _ => []
  | .elem tag cs =>
    if tag ∈ EXCLUDE_TAGS ∨ tag ∈ SPECIAL_HANDLING_TAGS then []
    else walkTextsChildren cs

/-- Walk-submitted texts of a list of sibling nodes. -/
def walkTextsChildren : List HNode → List Str
  | [] => []
  | HNode.text s :: rest =>
    (if pyStrip s ≠ [] then [s] else []) ++ walkTextsChildren rest
  | HNode.elem tag cs :: rest =>
    walkTexts (.elem tag cs) ++ walkTextsChildren rest
end

mutual
/-- The comment texts the special-handling pass submits to the service. -/
def preTexts : HNode → List Str
  | .text _ => []
  | .elem tag cs =>
    if tag ∈ SPECIAL_HANDLING_TAGS then
      ((preSegmentsAux (splitNl (getTextChildren cs)) 0).map Prod.fst).filter
        (fun t => decide (pyStrip t ≠ []))
    else preTextsChildren cs

/-- Special-pass texts of a list of sibling nodes. -/
def preTextsChildren : List HNode → List Str
  | [] => []
  | c :: cs => preTexts c ++ preTextsChildren cs
end

/-- All texts of a markup document submitted to the Translation Client, in
pipeline order: the document's Translatable segments. -/
def htmlSegments (doc : HNode) : List Str := preTexts doc ++ walkTexts doc

/-! ### Rate-limited dispatcher (the shared `asyncio.Semaphore`)

The drivers wrap every service call in `async with semaphore:` (created once
in `main` with the configured limit and shared by all files of a batch).
Inside the critical section a task first sleeps its jitter delay, then
performs the translation call; the slot is released when the section exits,
also on an exception.  The cooperative scheduler is modelled as a step
relation on a counting abstraction of the task population. -/

/-- Snapshot of a batch: how many translation tasks are waiting for a slot,
holding a slot during the jitter sleep, holding a slot during the service
call, and finished. -/
structure DispatchState where
  pending : Nat
  sleeping : Nat
  calling : Nat
  done : Nat
deriving DecidableEq

/-- One scheduler step of the semaphore-guarded dispatch: `acquire` admits a
waiting task when a slot is free (`asyncio.Semaphore(N)` admits at most `N`
holders), `startCall` moves a task from its jitter sleep to the service
call, `finish` completes a call (successfully or through the caught
exception) and releases the slot, `skip` is the non-alphanumeric fast path
that returns without touching the semaphore. -/
inductive DispatchStep (N : Nat) : DispatchState → DispatchState → Prop
  | acquire (s : DispatchState) :
      1 ≤ s.pending → s.sleeping + s.calling < N →
      DispatchStep N s ⟨s.pending - 1, s.sleeping + 1, s.calling, s.done⟩
  | startCall (s : DispatchState) :
      1 ≤ s.sleeping →
      DispatchStep N s ⟨s.pending, s.sleeping - 1, s.calling + 1, s.done⟩
  | finish (s : DispatchState) :
      1 ≤ s.calling →
      DispatchStep N s ⟨s.pending, s.sleeping, s.calling - 1, s.done + 1⟩
  | skip (s : DispatchState) :
      1 ≤ s.pending →
      DispatchStep N s ⟨s.pending - 1, s.sleeping, s.calling, s.done + 1⟩

/-- The start of a batch with `T` translation tasks (across all files):
everything pending, no slot held. -/
def initState (T : Nat) : DispatchState := ⟨T, 0, 0, 0⟩

/-! ### Helper lemmas: scanners reconstruct their input -/

/-- A fuel-exhausted scan is all singleton literals, which flatten back. -/
theorem chunkFlatten_singletons (s : Str) :
    chunkFlatten (s.map (fun c => Sum.inl [c])) = s := by
  induction s with
  | nil => rfl
  | cons c cs ih => simpa [chunkFlatten] using ih

/-- The two parts produced by `takeToEol` reassemble the input. -/
theorem takeToEol_append (s : Str) : (takeToEol s).1 ++ (takeToEol s).2 = s := by
  induction s with
  | nil => rfl
  | cons c cs ih =>
    by_cases h : c = '\n'
    · simp [takeToEol, h]
    · simpa [takeToEol, h] using ih

/-- A successful `takeToBlockEnd` decomposes the input. -/
theorem takeToBlockEnd_append :
    ∀ (s : Str) (p : Str × Str), takeToBlockEnd s = some p → p.1 ++ p.2 = s := by
  intro s
  induction s with
  | nil => intro p h; simp [takeToBlockEnd] at h
  | cons c1 rest ih =>
    intro p h
    match rest, ih with
    | [], _ => simp [takeToBlockEnd] at h
    | c2 :: cs, ih =>
      by_cases hcc : c1 = '*' ∧ c2 = '/'
      · simp only [takeToBlockEnd, if_pos hcc] at h
        obtain ⟨h1, h2⟩ := hcc
        cases h
        simp [h1, h2]
      · simp only [takeToBlockEnd, if_neg hcc] at h
        cases htb : takeToBlockEnd (c2 :: cs) with
        | none => rw [htb] at h; cases h
        | some q =>
          rw [htb] at h
          cases h
          simpa using ih q htb

/-- The comment scan is a partition of the input: flattening the chunks
gives back the file content. -/
theorem scanCommentsF_flatten : ∀ (fuel : Nat) (s : Str),
    chunkFlatten (scanCommentsF fuel s) = s := by
  intro fuel
  induction fuel with
  | zero => intro s; exact chunkFlatten_singletons s
  | succ fuel ih =>
    intro s
    match s with
    | [] => rfl
    | [c1] => rfl
    | c1 :: c2 :: cs =>
      by_cases h1 : c1 = '/' ∧ c2 = '/'
      · obtain ⟨ha, hb⟩ := h1
        subst ha; subst hb
        simp [scanCommentsF, chunkFlatten, ih, takeToEol_append cs]
      · by_cases h2 : c1 = '/' ∧ c2 = '*'
        · obtain ⟨ha, hb⟩ := h2
          subst ha; subst hb
          cases htb : takeToBlockEnd cs with
          | none => simp [scanCommentsF, h1, htb, chunkFlatten, ih]
          | some p =>
            have hdec := takeToBlockEnd_append cs p htb
            simp [scanCommentsF, h1, htb, chunkFlatten, ih, hdec]
        · simp [scanCommentsF, h1, h2, chunkFlatten, ih]

/-- Flattening the comment scan of a file gives back the file. -/
theorem scanComments_flatten (s : Str) : chunkFlatten (scanComments s) = s :=
  scanCommentsF_flatten s.length s

/-- A replacement function that fixes every match substitutes to the
original text. -/
theorem chunkApply_eq_flatten (repl : Str → Str) :
    ∀ ch : List Chunk, (∀ m ∈ chunkMatches ch, repl m = m) →
      chunkApply repl ch = chunkFlatten ch := by
  intro ch
  induction ch with
  | nil => intro _; rfl
  | cons c rest ih =>
    intro h
    cases c with
    | inl t =>
      simp only [chunkApply, chunkFlatten]
      rw [ih (fun m hm => h m (by simpa [chunkMatches] using hm))]
    | inr m =>
      simp only [chunkApply, chunkFlatten]
      rw [h m (by simp [chunkMatches]), ih (fun x hx => h x (by simp [chunkMatches, hx]))]

/-- Membership in `l.zip (l.map f)` pins the pair to `(a, f a)`. -/
theorem mem_zip_map {l : List Str} {f : Str → Str} {pr : Str × Str}
    (h : pr ∈ l.zip (l.map f)) : pr.1 ∈ l ∧ pr.2 = f pr.1 := by
  induction l with
  | nil => simp [List.zip] at h
  | cons a as ih =>
    simp only [List.map, List.zip_cons_cons, List.mem_cons] at h
    rcases h with h | h
    · subst h; exact ⟨List.mem_cons_self a as, rfl⟩
    · have := ih h
      exact ⟨List.mem_cons_of_mem a this.1, this.2⟩

/-- When the per-comment results are the comments themselves (as happens
when every comment is protected), the translation map is the identity. -/
theorem cppTranslationMap_id {l : List Str} {f : Str → Str}
    (hf : ∀ x ∈ l, f x = x) (t : Str) : cppTranslationMap l (l.map f) t = t := by
  unfold cppTranslationMap dictGet
  cases hfind : (l.zip (l.map f)).reverse.find? (fun pr => pr.1 == t) with
  | none => rfl
  | some pr =>
    have hmem : pr ∈ (l.zip (l.map f)).reverse := List.mem_of_find?_eq_some hfind
    have hkey := List.find?_some hfind
    have hmem2 : pr ∈ l.zip (l.map f) := List.mem_reverse.mp hmem
    have hpr := mem_zip_map hmem2
    have h1 : pr.1 = t := by simpa using hkey
    simp only [Option.map, h1] at hpr ⊢
    rw [hpr.2]
    exact hf t (h1 ▸ hpr.1)

/-- If every comment match of a file is fixed by the replacement function,
`re.sub` returns the file unchanged. -/
theorem substComments_id {repl : Str → Str} {s : Str}
    (h : ∀ m ∈ findComments s, repl m = m) : substComments repl s = s := by
  unfold substComments
  rw [chunkApply_eq_flatten repl _ h, scanComments_flatten]

/-! ### Helper lemmas: writing replacements back by index -/

/-- Setting an index different from the queried one does not change `getD`. -/
theorem getD_set_ne {l : List Str} {i j : Nat} (h : i ≠ j) (v : Str) :
    (l.set i v).getD j [] = l.getD j [] := by
  simp [List.getD_eq_getElem?_getD, List.getElem?_set_ne h]

/-- Writing back a line's own current value is a no-op. -/
theorem set_getD_self {l : List Str} {i : Nat} (h : i < l.length) :
    l.set i (l.getD i []) = l := by
  apply List.ext_getElem?
  intro n
  by_cases hn : i = n
  · subst hn
    rw [List.getElem?_set_self', List.getD_eq_getElem?_getD, List.getElem?_eq_getElem h]
    rfl
  · exact List.getElem?_set_ne hn

/-- When every pair writes back the line already stored at its index, the
reassembly loop leaves the line list unchanged. -/
theorem storeByIndex_fixed : ∀ (pairs : List (Nat × Str)) (lines : List Str),
    (∀ pr ∈ pairs, pr.1 < lines.length ∧ pr.2 = lines.getD pr.1 []) →
    storeByIndex pairs lines = lines := by
  intro pairs
  induction pairs with
  | nil => intro lines _; rfl
  | cons p ps ih =>
    intro lines h
    have hp := h p (List.mem_cons_self _ _)
    have hset : lines.set p.1 p.2 = lines := by rw [hp.2]; exact set_getD_self hp.1
    show storeByIndex ps (lines.set p.1 p.2) = lines
    rw [hset]
    exact ih lines (fun q hq => h q (List.mem_cons_of_mem _ hq))

/-- A line whose index no pair mentions is unchanged by the reassembly loop. -/
theorem storeByIndex_getD_not_mem :
    ∀ (pairs : List (Nat × Str)) (lines : List Str) (i : Nat),
      i ∉ pairs.map Prod.fst →
      (storeByIndex pairs lines).getD i [] = lines.getD i [] := by
  intro pairs
  induction pairs with
  | nil => intro lines i _; rfl
  | cons p ps ih =>
    intro lines i h
    simp only [List.map_cons, List.mem_cons, not_or] at h
    show (storeByIndex ps (lines.set p.1 p.2)).getD i [] = lines.getD i []
    rw [ih _ i h.2, getD_set_ne (Ne.symm h.1)]

/-- Reassembly by recorded index is invariant under reordering of the
result pairs, provided the recorded indices are distinct: completion order
cannot influence the output. -/
theorem storeByIndex_perm :
    ∀ {p1 p2 : List (Nat × Str)}, p1.Perm p2 → (p2.map Prod.fst).Nodup →
      ∀ lines, storeByIndex p1 lines = storeByIndex p2 lines := by
  intro p1 p2 hperm
  induction hperm with
  | nil => intro _ lines; rfl
  | cons x l12 ih =>
    intro hnd lines
    rw [List.map_cons, List.nodup_cons] at hnd
    show storeByIndex _ (lines.set x.1 x.2) = storeByIndex _ (lines.set x.1 x.2)
    exact ih hnd.2 _
  | swap x y l =>
    intro hnd lines
    have hxy : x.1 ≠ y.1 := by
      simp only [List.map_cons, List.nodup_cons, List.mem_cons, not_or] at hnd
      exact hnd.1.1
    show storeByIndex l ((lines.set y.1 y.2).set x.1 x.2)
        = storeByIndex l ((lines.set x.1 x.2).set y.1 y.2)
    rw [List.set_comm _ _ _ (Ne.symm hxy)]
  | trans h12 h23 ih1 ih2 =>
    intro hnd lines
    have hnd2 := ((h23.map Prod.fst).nodup_iff).mpr hnd
    rw [ih1 hnd2 lines, ih2 hnd lines]

/-! ### Helper lemmas: markdown segmentation -/

/-- Every index recorded by the markdown segmentation loop is at least the
loop's running index. -/
theorem mdSegmentAux_fst_ge : ∀ (ls : List Str) (n : Nat) (b : Bool) (pr : Nat × Str),
    pr ∈ mdSegmentAux ls n b → n ≤ pr.1 := by
  intro ls
  induction ls with
  | nil => intro n b pr h; simp [mdSegmentAux] at h
  | cons l ls ih =>
    intro n b pr h
    simp only [mdSegmentAux] at h
    split at h
    · exact Nat.le_of_succ_le (ih _ _ _ h)
    · split at h
      · exact Nat.le_of_succ_le (ih _ _ _ h)
      · split at h
        · exact Nat.le_of_succ_le (ih _ _ _ h)
        · rcases List.mem_cons.mp h with he | hm
          · simp [he]
          · exact Nat.le_of_succ_le (ih _ _ _ hm)

/-- The indices recorded by the markdown segmentation loop are distinct. -/
theorem mdSegmentAux_nodup : ∀ (ls : List Str) (n : Nat) (b : Bool),
    ((mdSegmentAux ls n b).map Prod.fst).Nodup := by
  intro ls
  induction ls with
  | nil => intro n b; simp [mdSegmentAux]
  | cons l ls ih =>
    intro n b
    simp only [mdSegmentAux]
    split
    · exact ih _ _
    · split
      · exact ih _ _
      · split
        · exact ih _ _
        · simp only [List.map_cons, List.nodup_cons]
          refine ⟨?_, ih _ _⟩
          intro hmem
          obtain ⟨pr, hpr, hfst⟩ := List.mem_map.mp hmem
          have := mdSegmentAux_fst_ge ls (n + 1) b pr hpr
          omega

/-- Every markdown segment records an in-range index and carries the line
stored there. -/
theorem mdSegmentAux_mem_spec : ∀ (ls : List Str) (n : Nat) (b : Bool) (pr : Nat × Str),
    pr ∈ mdSegmentAux ls n b →
      ∃ j, pr.1 = n + j ∧ j < ls.length ∧ ls.getD j [] = pr.2 := by
  intro ls
  induction ls with
  | nil => intro n b pr h; simp [mdSegmentAux] at h
  | cons l ls ih =>
    intro n b pr h
    simp only [mdSegmentAux] at h
    have step : pr ∈ mdSegmentAux ls (n + 1) b ∨ pr ∈ mdSegmentAux ls (n + 1) (!b) ∨ pr = (n, l) := by
      split at h
      · exact Or.inr (Or.inl h)
      · split at h
        · exact Or.inl h
        · split at h
          · exact Or.inl h
          · rcases List.mem_cons.mp h with he | hm
            · exact Or.inr (Or.inr he)
            · exact Or.inl hm
    rcases step with hm | hm | he
    · obtain ⟨j, h1, h2, h3⟩ := ih (n + 1) b pr hm
      exact ⟨j + 1, by omega, by simpa using h2, by simpa using h3⟩
    · obtain ⟨j, h1, h2, h3⟩ := ih (n + 1) (!b) pr hm
      exact ⟨j + 1, by omega, by simpa using h2, by simpa using h3⟩
    · exact ⟨0, by simp [he], by simp, by simp [he]⟩

/-- Flip of the parity tracked by the fence toggle. -/
theorem xor_parity_flip (b : Bool) (c : Nat) :
    xor b (decide ((c + 1) % 2 = 1)) = xor (!b) (decide (c % 2 = 1)) := by
  by_cases h : c % 2 = 1
  · have h2 : (c + 1) % 2 = 0 := by omega
    simp [h, h2]
  · have h2 : (c + 1) % 2 = 1 := by omega
    simp [h, h2]

/-- The fenced-block parity of the lines before position `i`, relative to an
initial toggle state `b`: `true` means position `i` lies inside a block. -/
def fenceStateAt (b : Bool) (pre : List Str) : Bool :=
  xor b (decide (pre.countP isFence % 2 = 1))

/-- A line inside a fenced code block (odd number of fence lines before it,
itself not a fence) is never recorded as a segment by the markdown
segmentation loop. -/
theorem mdSegmentAux_not_mem_of_inBlock :
    ∀ (ls : List Str) (n : Nat) (b : Bool) (i : Nat),
      i < ls.length →
      fenceStateAt b (ls.take i) = true →
      isFence (ls.getD i []) = false →
      (n + i) ∉ (mdSegmentAux ls n b).map Prod.fst := by
  intro ls
  induction ls with
  | nil => intro n b i hi; intro h; simp at hi
  | cons l ls ih =>
    intro n b i hi hstate hnf
    cases i with
    | zero =>
      have hb : b = true := by simpa [fenceStateAt] using hstate
      subst hb
      have hnf0 : isFence l = false := by simpa using hnf
      intro hmem
      simp only [mdSegmentAux, hnf0, Bool.false_eq_true, if_false, if_true] at hmem
      obtain ⟨pr, hpr, hfst⟩ := List.mem_map.mp hmem
      have := mdSegmentAux_fst_ge ls (n + 1) true pr hpr
      omega
    | succ j =>
      have hj : j < ls.length := by simpa using hi
      have hnf' : isFence (ls.getD j []) = false := by simpa using hnf
      by_cases hf : isFence l = true
      · have hstate' : fenceStateAt (!b) (ls.take j) = true := by
          simp only [fenceStateAt, List.take_succ_cons, List.countP_cons, hf,
            if_true] at hstate ⊢
          rw [← xor_parity_flip]
          exact hstate
        have hrec := ih (n + 1) (!b) j hj hstate' hnf'
        simp only [mdSegmentAux, hf, if_true]
        have : n + (j + 1) = n + 1 + j := by omega
        rw [this]
        exact hrec
      · have hf0 : isFence l = false := by simpa using hf
        have hstate' : fenceStateAt b (ls.take j) = true := by
          simpa [fenceStateAt, List.take_succ_cons, List.countP_cons, hf0] using hstate
        have hrec := ih (n + 1) b j hj hstate' hnf'
        have harith : n + (j + 1) = n + 1 + j := by omega
        simp only [mdSegmentAux, hf0, Bool.false_eq_true, if_false]
        split
        · rw [harith]; exact hrec
        · split
          · rw [harith]; exact hrec
          · simp only [List.map_cons, List.mem_cons, not_or]
            refine ⟨by omega, ?_⟩
            rw [harith]
            exact hrec

/-! ### Helper lemmas: TeX segmentation -/

/-- Every index recorded by the TeX segmentation loop is at least the
loop's running index. -/
theorem texSegmentAux_fst_ge : ∀ (ls : List Str) (n : Nat) (b : Bool) (pr : Nat × Str),
    pr ∈ texSegmentAux ls n b → n ≤ pr.1 := by
  intro ls
  induction ls with
  | nil => intro n b pr h; simp [texSegmentAux] at h
  | cons l ls ih =>
    intro n b pr h
    simp only [texSegmentAux] at h
    split at h
    · split at h
      · exact Nat.le_of_succ_le (ih _ _ _ h)
      · rcases List.mem_cons.mp h with he | hm
        · simp [he]
        · exact Nat.le_of_succ_le (ih _ _ _ hm)
    · split at h
      · exact Nat.le_of_succ_le (ih _ _ _ h)
      · split at h
        · exact Nat.le_of_succ_le (ih _ _ _ h)
        · split at h
          · exact Nat.le_of_succ_le (ih _ _ _ h)
          · split at h
            · exact Nat.le_of_succ_le (ih _ _ _ h)
            · rcases List.mem_cons.mp h with he | hm
              · simp [he]
              · exact Nat.le_of_succ_le (ih _ _ _ hm)

/-- The indices recorded by the TeX segmentation loop are distinct. -/
theorem texSegmentAux_nodup : ∀ (ls : List Str) (n : Nat) (b : Bool),
    ((texSegmentAux ls n b).map Prod.fst).Nodup := by
  intro ls
  induction ls with
  | nil => intro n b; simp [texSegmentAux]
  | cons l ls ih =>
    intro n b
    have hcons : ∀ v, ((((n : Nat), (v : Str)) :: texSegmentAux ls (n + 1) b).map Prod.fst).Nodup := by
      intro v
      simp only [List.map_cons, List.nodup_cons]
      refine ⟨?_, ih _ _⟩
      intro hmem
      obtain ⟨pr, hpr, hfst⟩ := List.mem_map.mp hmem
      have := texSegmentAux_fst_ge ls (n + 1) b pr hpr
      omega
    simp only [texSegmentAux]
    split
    · split
      · exact ih _ _
      · exact hcons _
    · split
      · exact ih _ _
      · split
        · exact ih _ _
        · split
          · exact ih _ _
          · split
            · exact ih _ _
            · exact hcons _

/-- The markdown replacement pairs keep the segment indices. -/
theorem mdPairs_fst (tr : Str → Str) (lines : List Str) :
    (mdPairs tr lines).map Prod.fst = (mdSegmentAux lines 0 false).map Prod.fst := by
  unfold mdPairs
  rw [List.map_map]
  rfl

/-- The TeX replacement pairs keep the segment indices. -/
theorem texPairs_fst (tr : Str → Str) (lines : List Str) :
    (texPairs tr lines).map Prod.fst = (texSegmentAux lines 0 false).map Prod.fst := by
  unfold texPairs
  rw [List.map_map]
  congr 1
  funext pr
  simp only [Function.comp_apply, texWrap]
  split <;> rfl

/-! ### Helper lemmas: no-op reassembly of protected documents -/

/-- A right strip is a prefix: re-attaching the dropped suffix restores the
original text. -/
theorem rstripWith_append (p : Char → Bool) (x : Str) :
    rstripWith p x ++ x.drop ((rstripWith p x).length) = x := by
  have hx : rstripWith p x ++ (x.reverse.takeWhile p).reverse = x := by
    unfold rstripWith
    rw [← List.reverse_append, List.takeWhile_append_dropWhile, List.reverse_reverse]
  have hdrop : x.drop ((rstripWith p x).length) = (x.reverse.takeWhile p).reverse := by
    set a := rstripWith p x with ha
    set b := (x.reverse.takeWhile p).reverse with hb
    rw [← hx, List.drop_left]
  rw [hdrop, hx]

/-- A markdown line that the spec classifies Protected (no ASCII
alphanumeric after placeholder substitution) is returned unchanged by
`translate_line` without reaching the service call. -/
theorem translate_line_of_protected (tr : Str → Str) (line : Str)
    (h : hasAlnum (mdLineWithPH line) = false) : translate_line tr line = line := by
  unfold translate_line
  by_cases h1 : hasAlnum line = false
  · rw [if_pos h1]
  · rw [if_neg h1, if_pos h]

/-- A non-alphanumeric comment passes through the C-family dispatch wrapper
unchanged. -/
theorem cpp_translate_protected (tr : Str → Str) (text : Str)
    (h : hasAlnum text = false) : cpp_translate_with_semaphore tr text = text := by
  unfold cpp_translate_with_semaphore
  simp [h]

/-! ### Concrete test doubles used by the scenario claims -/

/-- Mock service translating any text to its ASCII uppercase form. -/
def upperService : Str → Str := fun s => s.map Char.toUpper

/-- Uppercasing mock for the markup driver (calls always succeed). -/
def upperServiceOpt : Str → Option Str := fun s => some (s.map Char.toUpper)

/-- Mock translator mapping `hello world` to `ABC` and fixing other text. -/
def abcService : Str → Str := fun s => if s == S "hello world" then S "ABC" else s

/-- Service double that fails (returns `None`) on `alpha` and translates
`beta` to `B`. -/
def failAlphaService : Str → Option Str := fun s =>
  if s == S "alpha" then none
  else if s == S "beta" then some (S "B") else some s

/-- Markup document `<body><a><span>hi</span></a></body>`: translatable-looking
text nested inside a non-excluded descendant of an excluded element. -/
def excludedDoc : HNode :=
  .elem (S "body") [.elem (S "a") [.elem (S "span") [.text (S "hi")]]]

/-- Markup document `<body><pre><b>x</b></pre></body>`: markup structure
inside a special-handling tag, with zero Translatable segments. -/
def specialFlattenDoc : HNode :=
  .elem (S "body") [.elem (S "pre") [.elem (S "b") [.text (S "x")]]]

/-! ### Claim theorems -/

/-- C1: the claim states that when the Translation Client fails for segment
`k`, all other segments' translations are unaffected and segment `k` keeps
its original content.  The code violates this in the special-handling pass
of honyaku.py: `translate_text_list` filters failed (`None`) results out of
the gathered list, and `process_file` then zips the shortened result list
against the full list of originals, shifting every later translation onto
an earlier comment.  With comments `alpha` (call fails) and `beta`
(translated to `B`), the failed line receives `// B` — beta's translation —
and the `beta` line is left untranslated, instead of the claimed output
`["// alpha", "// B"]`.  The dead `if translated is None: continue` guard in
the source shows the intended behaviour is the claimed one. -/
theorem c1_failure_misalignment :
    processPreLines failAlphaService [S "// alpha", S "// beta"] = [S "// B", S "// beta"]
    ∧ [S "// B", S "// beta"] ≠ [S "// alpha", S "// B"] :=
  ⟨by decide, by decide⟩

/-- C4 counterexample: translating `` Use `foo()` to start. `` under the
uppercasing mock does not give the claimed `` USE `foo()` TO START. `` —
the `\s*placeholder\s*` restoration strips the spaces around the code
span. -/
theorem c4_claimed_output_refuted :
    translate_line upperService (S "Use `foo()` to start.") ≠ S "USE `foo()` TO START." := by
  decide

/-- C4 amended: the inline-code span is preserved verbatim and the prose is
uppercased, but the whitespace adjacent to the restored span (including the
spaces that separated it from the prose) is stripped, so the output line is
`` USE`foo()`TO START. `` . -/
theorem c4_inline_code_actual :
    translate_line upperService (S "Use `foo()` to start.") = S "USE`foo()`TO START." := by
  decide

/-- C6: processing the line `    // hello world` through the C-family
driver with the mock `hello world → ABC` yields `    // ABC`, preserving
the four-space indent and the sigil-plus-space form. -/
theorem c6_cfamily_comment_scenario :
    cpp_process_file abcService (S "    // hello world") = S "    // ABC" := by
  decide

/-- C7: an `\item` line is handled by rule 1 alone — the command is
stripped, the remainder translated, the command restored as marker — so
`\item A note here` uppercases to `\item A NOTE HERE`; and no later rule
runs on such a line: an `\item` line containing the verbatim-block-open
delimiter `\{` does not toggle the block state, so the following plain line
is still translated. -/
theorem c7_item_line_scenario :
    tex_process_file upperService [S "\\item A note here\n"] = [S "\\item A NOTE HERE\n"]
    ∧ tex_process_file upperService [S "\\item has \\\x7b brace\n", S "plain text\n"]
        = [S "\\item HAS \\\x7b BRACE\n", S "PLAIN TEXT\n"] :=
  ⟨by decide, by decide⟩

/-- C3 counterexample: in `<body><a><span>hi</span></a></body>` the text
`hi` sits in a non-excluded `span` nested inside the excluded `a`, yet the
pipeline leaves the whole document unchanged under an uppercasing service —
the walk does **not** recurse into the children of an excluded element, so
the nested text is never translated (the second conjunct shows the service
would have changed it). -/
theorem c3_no_recursion_into_excluded :
    serialize (html_process_file upperServiceOpt excludedDoc)
        = S "<body><a><span>hi</span></a></body>"
    ∧ upperServiceOpt (S "hi") ≠ some (S "hi") :=
  ⟨by decide, by decide⟩

/-- C3 amended: exclusion is a subtree blackout — when the walk reaches an
element whose tag is in the exclusion set (or the special-handling set), it
returns the element unchanged, neither translating its text nodes nor
recursing into its children, so text in nested non-excluded descendants is
never translated. -/
theorem c3_excluded_subtree_blackout (tr : Str → Option Str) (tag : Str) (cs : List HNode)
    (h : tag ∈ EXCLUDE_TAGS ∨ tag ∈ SPECIAL_HANDLING_TAGS) :
    translateElement tr (.elem tag cs) = .elem tag cs := by
  unfold translateElement
  rw [if_pos h]

/-- C3 amended, witness: the excluded anchor element of the counterexample
document is returned unchanged by the walk. -/
theorem c3_excluded_subtree_blackout_witness :
    ((S "a") ∈ EXCLUDE_TAGS ∨ (S "a") ∈ SPECIAL_HANDLING_TAGS)
    ∧ translateElement upperServiceOpt (.elem (S "a") [.elem (S "span") [.text (S "hi")]])
        = .elem (S "a") [.elem (S "span") [.text (S "hi")]] :=
  ⟨Or.inl (by decide),
   c3_excluded_subtree_blackout upperServiceOpt (S "a") [.elem (S "span") [.text (S "hi")]]
     (Or.inl (by decide))⟩

/-- No-op lemma for the C-family driver: when every comment match is
non-alphanumeric (hence Protected), the file is reproduced byte-identically. -/
theorem cpp_noop (tr : Str → Str) (content : Str)
    (h : ∀ c ∈ findComments content, hasAlnum c = false) :
    cpp_process_file tr content = content := by
  unfold cpp_process_file cpp_process_file_with
  by_cases hc : findComments content = []
  · rw [if_pos hc]
  · rw [if_neg hc]
    have hfix : ∀ x ∈ findComments content, cpp_translate_with_semaphore tr x = x :=
      fun x hx => cpp_translate_protected tr x (h x hx)
    apply substComments_id
    intro m _
    exact cppTranslationMap_id hfix m

/-- No-op lemma for the markdown driver: when every selected line is
Protected (no ASCII alphanumeric after placeholder substitution), the lines
are reproduced byte-identically. -/
theorem md_noop (tr : Str → Str) (lines : List Str)
    (h : ∀ pr ∈ mdSegmentAux lines 0 false, hasAlnum (mdLineWithPH (rstripNl pr.2)) = false) :
    md_process_file tr lines = lines := by
  unfold md_process_file mdPairs
  apply storeByIndex_fixed
  intro q hq
  obtain ⟨pr, hpr, hwrap⟩ := List.mem_map.mp hq
  obtain ⟨j, hj1, hj2, hj3⟩ := mdSegmentAux_mem_spec lines 0 false pr hpr
  have hj0 : pr.1 = j := by omega
  subst hwrap
  unfold mdWrap
  refine ⟨by simpa [hj0] using hj2, ?_⟩
  show translate_line tr (rstripNl pr.2) ++ pr.2.drop (rstripNl pr.2).length
      = lines.getD pr.1 []
  rw [translate_line_of_protected tr _ (h pr hpr)]
  unfold rstripNl
  rw [rstripWith_append]
  rw [hj0]
  exact hj3.symm

/-- C2 counterexample: the document `<body><pre><b>x</b></pre></body>` has
zero Translatable segments (no `//` comment lines in the special-handling
tag, no walkable text outside it), yet the markup driver's output differs
from the input — `tag.string = get_text()` flattens the markup inside the
special-handling tag, so the claim fails for the tree-markup driver. -/
theorem c2_markup_not_byte_identical :
    htmlSegments specialFlattenDoc = []
    ∧ serialize (html_process_file upperServiceOpt specialFlattenDoc)
        ≠ serialize specialFlattenDoc :=
  ⟨by decide, by decide⟩

/-- C2 amended: a Document with zero Translatable segments reassembles
byte-identically in the three text-based drivers — C-family (all comment
matches non-alphanumeric), lightweight markup (every selected line
non-alphanumeric after placeholder substitution), typesetting (no line
segmented).  The tree-markup driver is excluded: its special-handling pass
rebuilds the tag's subtree from `get_text()` and re-serializes the tree, so
byte-identity can fail there even with zero Translatable segments. -/
theorem c2_noop_text_drivers :
    (∀ (tr : Str → Str) (content : Str),
       (∀ c ∈ findComments content, hasAlnum c = false) →
       cpp_process_file tr content = content)
    ∧ (∀ (tr : Str → Str) (lines : List Str),
       (∀ pr ∈ mdSegmentAux lines 0 false,
           hasAlnum (mdLineWithPH (rstripNl pr.2)) = false) →
       md_process_file tr lines = lines)
    ∧ (∀ (tr : Str → Str) (lines : List Str),
       texSegmentAux lines 0 false = [] →
       tex_process_file tr lines = lines) := by
  refine ⟨cpp_noop, md_noop, ?_⟩
  intro tr lines h
  unfold tex_process_file
  rw [if_pos h]

/-- C2 amended, witness: concrete protected documents for all three
drivers — a non-alphanumeric C comment, a non-alphanumeric markdown line,
and a TeX line containing a backslash — are reproduced byte-identically. -/
theorem c2_noop_text_drivers_witness :
    cpp_process_file upperService (S "int x; // ----") = S "int x; // ----"
    ∧ md_process_file upperService [S "---\n", S "\n"] = [S "---\n", S "\n"]
    ∧ tex_process_file upperService [S "\\documentclass\n"] = [S "\\documentclass\n"] :=
  ⟨c2_noop_text_drivers.1 upperService (S "int x; // ----") (by decide),
   c2_noop_text_drivers.2.1 upperService [S "---\n", S "\n"] (by decide),
   c2_noop_text_drivers.2.2 upperService [S "\\documentclass\n"] (by decide)⟩

/-- C5: reassembly consumes results by original segment index, so the
output is invariant under any permutation of the `(index, replacement)`
result pairs — the order in which translation calls complete cannot change
the reassembled document, and each replacement lands at its segment's
original index (both the markdown and the TeX drivers). -/
theorem c5_order_preservation (tr : Str → Str) (lines : List Str) :
    (∀ pairs : List (Nat × Str), pairs.Perm (mdPairs tr lines) →
        storeByIndex pairs lines = md_process_file tr lines)
    ∧ (∀ pairs : List (Nat × Str), pairs.Perm (texPairs tr lines) →
        storeByIndex pairs lines = tex_process_file tr lines) := by
  constructor
  · intro pairs hp
    unfold md_process_file
    refine storeByIndex_perm hp ?_ lines
    rw [mdPairs_fst]
    exact mdSegmentAux_nodup _ _ _
  · intro pairs hp
    unfold tex_process_file
    by_cases hseg : texSegmentAux lines 0 false = []
    · rw [if_pos hseg]
      have hnil : texPairs tr lines = [] := by
        unfold texPairs
        rw [hseg]
        rfl
      rw [hnil] at hp
      rw [hp.eq_nil]
      rfl
    · rw [if_neg hseg]
      refine storeByIndex_perm hp ?_ lines
      rw [texPairs_fst]
      exact texSegmentAux_nodup _ _ _

/-- C5 witness: feeding the result pairs in reversed (simulated completion)
order reassembles the same output as the pipeline for concrete two-line
markdown and TeX documents. -/
theorem c5_order_preservation_witness :
    storeByIndex ((mdPairs upperService [S "one\n", S "two\n"]).reverse)
        [S "one\n", S "two\n"]
      = md_process_file upperService [S "one\n", S "two\n"]
    ∧ storeByIndex ((texPairs upperService [S "alpha\n", S "beta\n"]).reverse)
        [S "alpha\n", S "beta\n"]
      = tex_process_file upperService [S "alpha\n", S "beta\n"] :=
  ⟨(c5_order_preservation upperService [S "one\n", S "two\n"]).1 _ (List.reverse_perm _),
   (c5_order_preservation upperService [S "alpha\n", S "beta\n"]).2 _ (List.reverse_perm _)⟩

/-- C8: a markdown line lying between an odd-numbered and the next
even-numbered occurrence of the fence marker (an odd number of fence lines
precede it and it is not itself a fence) is Protected: the segmentation
loop never records its index, so it is never sent to the translation
service, and the reassembled output leaves it unchanged. -/
theorem c8_fenced_block_protected (tr : Str → Str) (lines : List Str) (i : Nat)
    (h1 : (lines.take i).countP isFence % 2 = 1)
    (h2 : i < lines.length)
    (h3 : isFence (lines.getD i []) = false) :
    i ∉ (mdSegmentAux lines 0 false).map Prod.fst
    ∧ (md_process_file tr lines).getD i [] = lines.getD i [] := by
  have hstate : fenceStateAt false (lines.take i) = true := by
    simp [fenceStateAt, h1]
  have hnot := mdSegmentAux_not_mem_of_inBlock lines 0 false i h2 hstate h3
  rw [Nat.zero_add] at hnot
  refine ⟨hnot, ?_⟩
  unfold md_process_file
  apply storeByIndex_getD_not_mem
  rw [mdPairs_fst]
  exact hnot

/-- C8 witness: in the document ```` ["```int", "hello", "```"] ````-style
(a fence, a content line, a fence), line 1 is inside the fenced block: it is
not among the recorded segment indices and is unchanged in the output. -/
theorem c8_fenced_block_protected_witness :
    1 ∉ (mdSegmentAux [S "```\n", S "hello\n", S "```\n"] 0 false).map Prod.fst
    ∧ (md_process_file upperService [S "```\n", S "hello\n", S "```\n"]).getD 1 []
        = [S "```\n", S "hello\n", S "```\n"].getD 1 [] :=
  c8_fenced_block_protected upperService [S "```\n", S "hello\n", S "```\n"] 1
    (by decide) (by decide) (by decide)

/-- C9: every state reachable by the semaphore-guarded dispatch from a
batch start (any number of tasks, all files together) keeps the number of
in-flight Translation Client calls within the configured limit `N` — in
fact slot holders (sleeping plus calling tasks) never exceed `N`. -/
theorem c9_concurrency_bound (N T : Nat) (s : DispatchState)
    (h : Relation.ReflTransGen (DispatchStep N) (initState T) s) :
    s.calling ≤ N := by
  have key : ∀ t : DispatchState, Relation.ReflTransGen (DispatchStep N) (initState T) t →
      t.sleeping + t.calling ≤ N := by
    intro t ht
    induction ht with
    | refl => simp [initState]
    | tail hr hstep ih =>
      cases hstep with
      | acquire h1 h2 => dsimp only at ih ⊢; omega
      | startCall h1 => dsimp only at ih ⊢; omega
      | finish h1 => dsimp only at ih ⊢; omega
      | skip h1 => dsimp only at ih ⊢; omega
  have := key s h
  omega

/-- C9 witness: with limit 5 and three tasks, the state reached after one
`acquire` step respects the bound. -/
theorem c9_concurrency_bound_witness : (DispatchState.mk 2 1 0 0).calling ≤ 5 :=
  c9_concurrency_bound 5 3 ⟨2, 1, 0, 0⟩
    (Relation.ReflTransGen.single
      (DispatchStep.acquire (initState 3) (by decide) (by decide)))

/-- C10: in the C-family driver the substitution goes through a map keyed
by the original comment text (`translation_map.get(original, original)`),
so the output is `re.sub` with a replacement function of the match text
alone, and any two occurrences of the same comment text receive the same
replacement — for every file content and every list of per-call results. -/
theorem c10_duplicate_uniform (results : List Str) (content : Str) (i j : Nat)
    (h : (findComments content).getD i [] = (findComments content).getD j []) :
    cpp_process_file_with results content
      = substComments (cppTranslationMap (findComments content) results) content
    ∧ cppTranslationMap (findComments content) results ((findComments content).getD i [])
      = cppTranslationMap (findComments content) results ((findComments content).getD j []) := by
  constructor
  · unfold cpp_process_file_with
    by_cases hc : findComments content = []
    · rw [if_pos hc]
      exact (substComments_id (fun m hm => by rw [hc] at hm; cases hm)).symm
    · rw [if_neg hc]
  · rw [h]

/-- C10 witness: a file with the duplicate comment `// a` and two distinct
per-call results still replaces both occurrences through the same map
lookup. -/
theorem c10_duplicate_uniform_witness :
    cpp_process_file_with [S "// P", S "// Q"] (S "// a\nx\n// a")
      = substComments
          (cppTranslationMap (findComments (S "// a\nx\n// a")) [S "// P", S "// Q"])
          (S "// a\nx\n// a")
    ∧ cppTranslationMap (findComments (S "// a\nx\n// a")) [S "// P", S "// Q"]
        ((findComments (S "// a\nx\n// a")).getD 0 [])
      = cppTranslationMap (findComments (S "// a\nx\n// a")) [S "// P", S "// Q"]
        ((findComments (S "// a\nx\n// a")).getD 1 []) :=
  c10_duplicate_uniform [S "// P", S "// Q"] (S "// a\nx\n// a") 0 1 (by decide)
